import Mathlib

/-
Verification of the page-reconciliation core (src/btree/rec_write.c).

The development shallowly embeds the reconciliation data structures and
algorithms: byte strings are lists of naturals, raw pointers into the
working disk buffer are byte offsets measured from the first post-header
byte, and the external block manager is modeled as an append-only list of
written blocks whose address is the list index at write time.  The cell
codec, the Huffman codecs and the buffer arena are external collaborators
and are not re-modeled; where a definition touches them this is noted in
its documentation.
-/

set_option maxHeartbeats 1000000

namespace WtRec

/-- Size in bytes of the fixed WT_PAGE_DISK header at the front of every
written block.  The exact value is irrelevant to the claims; it is kept
abstract as a named constant. -/
def WT_PAGE_DISK_SIZE : Nat := 28

/-- Invalid disk address marker (the all-ones 32-bit value). -/
def WT_ADDR_INVALID : Nat := 4294967295

/-- Page-type codes of the on-disk format. -/
inductive PageType where
  | ROW_INT
  | ROW_LEAF
  | COL_INT
  | COL_VAR
  | COL_FIX
  | OVFL
deriving DecidableEq, Repr, Inhabited

/-- Strict lexicographic order on byte strings: a proper front part of a
string sorts before the string, otherwise the first differing byte
decides. -/
def lex_lt : List Nat → List Nat → Bool
  | [], [] => false
  | [], _ :: _ => true
  | _ :: _, [] => false
  | a :: as, b :: bs => if a < b then true else if b < a then false else lex_lt as bs

/-- Index of the first differing byte of two byte strings; when one string
is a front part of the other this is the shorter length. -/
def first_diff_idx : List Nat → List Nat → Nat
  | a :: as, b :: bs => if a = b then first_diff_idx as bs + 1 else 0
  | _, _ => 0

/-- Prefix-count loop of rec_cell_build_key: walk the current and last key
bytes in parallel, stopping at pfx_max or at the first differing byte.
The first list is the current key, the second the last key. -/
def pfx_loop : List Nat → List Nat → Nat → Nat → Nat
  | a :: as, b :: bs, pfx, pfx_max =>
      if pfx < pfx_max then
        if a = b then pfx_loop as bs (pfx + 1) pfx_max else pfx
      else pfx
  | _, _, pfx, _ => pfx

/-- Result of building a key cell: either an ordinary key cell carrying a
prefix count and the trailing bytes, or an overflow key carrying the full
byte string (the overflow block itself is written elsewhere). -/
inductive BuiltKey where
  | cell (pfx : Nat) (bytes : List Nat)
  | ovfl (bytes : List Nat)
deriving DecidableEq, Repr

/-- Model of rec_cell_build_key on the no-Huffman-key configuration.  The
current key is cur; when pfx_compress is set the stored prefix count is
computed against the previous full key last, capped at 255 and at both
key lengths.  If the resulting cell would exceed maxitem the code retries
once with the full key (prefix zero) and falls back to an overflow key.
The Huffman encoding step of the source is the identity here because the
claims concern the no-codec configuration. -/
def rec_cell_build_key (maxitem : Nat) (pfx_compress : Bool)
    (last cur : List Nat) : BuiltKey :=
  let pfx_max0 := 255
  let pfx_max1 := if cur.length < pfx_max0 then cur.length else pfx_max0
  let pfx_max := if last.length < pfx_max1 then last.length else pfx_max1
  let pfx := if pfx_compress then pfx_loop cur last 0 pfx_max else 0
  let bytes := cur.drop pfx
  if bytes.length > maxitem then
    if pfx = 0 then BuiltKey.ovfl bytes
    else if cur.length > maxitem then BuiltKey.ovfl cur
    else BuiltKey.cell 0 cur
  else BuiltKey.cell pfx bytes

/-- Key-compression state carried by the reconciliation structure: the two
full-key buffers and the run-time and configured compression flags. -/
structure KeyState where
  cur : List Nat
  last : List Nat
  key_pfx_compress : Bool
  key_pfx_compress_conf : Bool
  key_sfx_compress : Bool
  key_sfx_compress_conf : Bool
deriving DecidableEq, Repr

/-- Model of rec_key_state_update: after writing an overflow key only the
suffix-compression flag is cleared; otherwise the cur and last buffers are
swapped and both run-time flags are reloaded from the configuration. -/
def rec_key_state_update (ovfl_key : Bool) (r : KeyState) : KeyState :=
  if ovfl_key then { r with key_sfx_compress := false }
  else { r with cur := r.last, last := r.cur,
                key_pfx_compress := r.key_pfx_compress_conf,
                key_sfx_compress := r.key_sfx_compress_conf }

/-- Loop of rec_split_row_promote computing the length of the promoted
key under suffix compression: the counter starts at one and advances past
each agreeing byte pair; at the first differing byte the current counter
is the answer, and if the shorter string runs out the answer is one past
the common length. -/
def promote_size_loop : List Nat → List Nat → Nat → Nat
  | a :: as, b :: bs, cnt => if a ≠ b then cnt else promote_size_loop as bs (cnt + 1)
  | _, _, cnt => cnt

/-- Size of the key promoted by rec_split_row_promote when suffix
compression applies; the first argument is the last key of the previous
chunk, the second the key being promoted. -/
def rec_split_row_promote_size (last cur : List Nat) : Nat :=
  promote_size_loop last cur 1

/-- Key recorded for a boundary after the first by rec_split_row_promote:
on a row-store leaf page with the suffix-compression flag set, the
shortest front part of cur that still sorts strictly above last;
otherwise the full current key. -/
def rec_split_row_promote_key (ptype : PageType) (sfx_compress : Bool)
    (last cur : List Nat) : List Nat :=
  if ptype = PageType.ROW_LEAF ∧ sfx_compress = true then
    cur.take (rec_split_row_promote_size last cur)
  else cur

/- Arithmetic and list helper lemmas. -/

theorem if_lt_eq_min (a b : Nat) : (if a < b then a else b) = min a b := by
  split <;> omega

theorem pfx_loop_eq (a : List Nat) : ∀ (b : List Nat) (p m : Nat), p ≤ m →
    pfx_loop a b p m = min m (p + first_diff_idx a b) := by
  induction a with
  | nil =>
      intro b p m hpm
      cases b <;> simp [pfx_loop, first_diff_idx] <;> omega
  | cons x as ih =>
      intro b p m hpm
      cases b with
      | nil => simp [pfx_loop, first_diff_idx]; omega
      | cons y bs =>
          by_cases hpmlt : p < m
          · by_cases hxy : x = y
            · subst hxy
              have h1 := ih bs (p + 1) m (by omega)
              simp [pfx_loop, hpmlt, first_diff_idx, h1]
              omega
            · simp [pfx_loop, hpmlt, hxy, first_diff_idx]
              omega
          · have hpe : p = m := by omega
            simp [pfx_loop, hpmlt, first_diff_idx]
            omega

theorem first_diff_idx_le_left (a : List Nat) : ∀ b : List Nat,
    first_diff_idx a b ≤ a.length := by
  induction a with
  | nil => intro b; cases b <;> simp [first_diff_idx]
  | cons x as ih =>
      intro b
      cases b with
      | nil => simp [first_diff_idx]
      | cons y bs =>
          by_cases hxy : x = y
          · simpa [first_diff_idx, hxy] using ih bs
          · simp [first_diff_idx, hxy]

theorem first_diff_idx_le_right (a : List Nat) : ∀ b : List Nat,
    first_diff_idx a b ≤ b.length := by
  induction a with
  | nil => intro b; cases b <;> simp [first_diff_idx]
  | cons x as ih =>
      intro b
      cases b with
      | nil => simp [first_diff_idx]
      | cons y bs =>
          by_cases hxy : x = y
          · simpa [first_diff_idx, hxy] using ih bs
          · simp [first_diff_idx, hxy]

theorem take_eq_of_le_first_diff (a : List Nat) : ∀ (b : List Nat) (n : Nat),
    n ≤ first_diff_idx a b → a.take n = b.take n := by
  induction a with
  | nil =>
      intro b n h
      cases b <;> simp [first_diff_idx] at h <;> simp [h]
  | cons x as ih =>
      intro b n h
      cases b with
      | nil => simp [first_diff_idx] at h; simp [h]
      | cons y bs =>
          by_cases hxy : x = y
          · subst hxy
            simp [first_diff_idx] at h
            cases n with
            | zero => simp
            | succ m => simp [List.take_succ_cons, ih bs m (by omega)]
          · simp [first_diff_idx, hxy] at h
            simp [h]

/-- C5: for every non-overflow key cell built on a row page with prefix
compression active and no Huffman key codec, the stored prefix count is
the minimum of 255, the two key lengths and the index of the first
differing byte; the cell stores exactly the trailing bytes past the
prefix; and prepending the first pfx bytes of the previous full key to
the stored bytes reassembles the original key. -/
theorem rec_cell_build_key_pfx_correct (maxitem : Nat) (last cur : List Nat)
    (pfx : Nat) (bytes : List Nat)
    (h : rec_cell_build_key maxitem true last cur = BuiltKey.cell pfx bytes) :
    pfx = min 255 (min cur.length (min last.length (first_diff_idx cur last))) ∧
    bytes = cur.drop pfx ∧
    bytes.length = cur.length - pfx ∧
    last.take pfx ++ bytes = cur := by
  have hd1 := first_diff_idx_le_left cur last
  have hd2 := first_diff_idx_le_right cur last
  unfold rec_cell_build_key at h
  simp only [if_lt_eq_min] at h
  have hploop :
      pfx_loop cur last 0 (min last.length (min cur.length 255)) =
        min 255 (min cur.length (min last.length (first_diff_idx cur last))) := by
    rw [pfx_loop_eq cur last 0 (min last.length (min cur.length 255)) (by omega)]
    omega
  set p := min 255 (min cur.length (min last.length (first_diff_idx cur last))) with hp
  have hple : p ≤ cur.length := by omega
  have hpd : p ≤ first_diff_idx cur last := by omega
  simp only [hploop, ← hp, if_true] at h
  by_cases hov : (cur.drop p).length > maxitem
  · exfalso
    simp only [hov, if_true] at h
    have hlen : (cur.drop p).length = cur.length - p := by simp
    by_cases hp0 : p = 0
    · simp [hp0] at h
    · have hcl : ¬ cur.length > maxitem := by
        intro hcg
        simp [hp0, if_neg, hcg] at h
      simp [hp0, hcl] at h
      omega
  · rw [if_neg hov] at h
    obtain ⟨hpe, hbe⟩ := BuiltKey.cell.inj h
    subst hpe
    subst hbe
    refine ⟨rfl, rfl, by simp, ?_⟩
    have htake : last.take p = cur.take p :=
      (take_eq_of_le_first_diff cur last p hpd).symm
    rw [htake]
    exact List.take_append_drop p cur

/-- C5 witness: evaluation at a concrete input discharging the
hypothesis. -/
theorem rec_cell_build_key_pfx_correct_witness :
    2 = min 255 (min ([1, 2, 4] : List Nat).length
      (min ([1, 2, 3] : List Nat).length (first_diff_idx [1, 2, 4] [1, 2, 3]))) ∧
    ([4] : List Nat) = List.drop 2 [1, 2, 4] ∧
    ([4] : List Nat).length = ([1, 2, 4] : List Nat).length - 2 ∧
    List.take 2 [1, 2, 3] ++ [4] = [1, 2, 4] :=
  rec_cell_build_key_pfx_correct 100 [1, 2, 3] [1, 2, 4] 2 [4] (by decide)

/-- C10: writing an overflow key changes no key-compression state except
clearing the suffix-compression flag: the cur and last full-key buffers
stay in place and the prefix-compression flag keeps its prior value, so
the key cell built next is still prefix-compressed against the most
recent non-overflow key. -/
theorem rec_key_state_update_ovfl_frame (r : KeyState) (maxitem : Nat)
    (next : List Nat) :
    (rec_key_state_update true r).cur = r.cur ∧
    (rec_key_state_update true r).last = r.last ∧
    (rec_key_state_update true r).key_pfx_compress = r.key_pfx_compress ∧
    (rec_key_state_update true r).key_sfx_compress = false ∧
    (rec_key_state_update true r).key_pfx_compress_conf = r.key_pfx_compress_conf ∧
    (rec_key_state_update true r).key_sfx_compress_conf = r.key_sfx_compress_conf ∧
    rec_cell_build_key maxitem (rec_key_state_update true r).key_pfx_compress
        (rec_key_state_update true r).last next =
      rec_cell_build_key maxitem r.key_pfx_compress r.last next := by
  simp [rec_key_state_update]

theorem promote_size_loop_eq (a : List Nat) : ∀ (b : List Nat) (c : Nat),
    promote_size_loop a b c = c + first_diff_idx a b := by
  induction a with
  | nil => intro b c; cases b <;> simp [promote_size_loop, first_diff_idx]
  | cons x as ih =>
      intro b c
      cases b with
      | nil => simp [promote_size_loop, first_diff_idx]
      | cons y bs =>
          by_cases hxy : x = y
          · simp [promote_size_loop, hxy, first_diff_idx, ih bs (c + 1)]
            omega
          · simp [promote_size_loop, hxy, first_diff_idx]

theorem lex_lt_first_diff (a : List Nat) : ∀ b : List Nat,
    lex_lt a b = true →
    (first_diff_idx a b = a.length ∧ first_diff_idx a b < b.length) ∨
    (first_diff_idx a b < a.length ∧ first_diff_idx a b < b.length ∧
      a.getD (first_diff_idx a b) 0 < b.getD (first_diff_idx a b) 0) := by
  induction a with
  | nil =>
      intro b h
      cases b with
      | nil => simp [lex_lt] at h
      | cons y bs => left; simp [first_diff_idx]
  | cons x as ih =>
      intro b h
      cases b with
      | nil => simp [lex_lt] at h
      | cons y bs =>
          by_cases hxy : x = y
          · subst hxy
            simp [lex_lt] at h
            have hfd : first_diff_idx (x :: as) (x :: bs) = first_diff_idx as bs + 1 := by
              simp [first_diff_idx]
            rcases ih bs h with h1 | h1
            · left
              rw [hfd]
              simp only [List.length_cons]
              omega
            · obtain ⟨ha, hb, hc⟩ := h1
              right
              rw [hfd]
              simp only [List.length_cons, List.getD_cons_succ]
              exact ⟨by omega, by omega, hc⟩
          · have hlt : x < y := by
              by_contra hnl
              simp [lex_lt, hnl] at h
              rcases h with ⟨h1, h2⟩
              exact hxy (by omega)
            right
            simp [first_diff_idx, hxy]
            exact hlt

theorem lex_lt_core (last : List Nat) : ∀ cur : List Nat,
    lex_lt last cur = true →
    lex_lt last (cur.take (1 + first_diff_idx last cur)) = true ∧
    (∀ n, n ≤ first_diff_idx last cur → lex_lt last (cur.take n) = false) := by
  induction last with
  | nil =>
      intro cur h
      cases cur with
      | nil => simp [lex_lt] at h
      | cons c cs =>
          constructor
          · simp [first_diff_idx, lex_lt]
          · intro n hn
            simp [first_diff_idx] at hn
            subst hn
            simp [lex_lt]
  | cons a as ih =>
      intro cur h
      cases cur with
      | nil => simp [lex_lt] at h
      | cons b bs =>
          by_cases hab : a = b
          · subst hab
            simp [lex_lt] at h
            have ih2 := ih bs h
            constructor
            · have : 1 + first_diff_idx (a :: as) (a :: bs) =
                  (1 + first_diff_idx as bs) + 1 := by
                simp [first_diff_idx]; omega
              rw [this]
              simpa [lex_lt] using ih2.1
            · intro n hn
              cases n with
              | zero => simp [lex_lt]
              | succ m =>
                  simp [first_diff_idx] at hn
                  simpa [lex_lt] using ih2.2 m (by omega)
          · have hd : first_diff_idx (a :: as) (b :: bs) = 0 := by
              simp [first_diff_idx, hab]
            have hlt : a < b := by
              by_contra hnl
              simp [lex_lt, hnl] at h
              rcases h with ⟨h1, h2⟩
              exact hab (by omega)
            constructor
            · simp [hd, lex_lt, hlt]
            · intro n hn
              rw [hd] at hn
              interval_cases n
              simp [lex_lt]

theorem first_diff_idx_of_proper (last : List Nat) : ∀ cur : List Nat,
    cur.take last.length = last → last.length < cur.length →
    first_diff_idx last cur = last.length := by
  induction last with
  | nil => intro cur _ _; cases cur <;> simp [first_diff_idx]
  | cons a as ih =>
      intro cur htake hlen
      cases cur with
      | nil => simp at hlen
      | cons b bs =>
          simp [List.take_succ_cons] at htake
          have hab : b = a := htake.1
          subst hab
          simp at hlen
          simp [first_diff_idx, ih bs htake.2 (by omega)]

/-- C4: on a transition to a boundary after the first on a row-store leaf
page with the suffix-compression flag set (the flag is clear whenever the
previous key written was an overflow key), the promoted key is the
minimum-length byte prefix of cur sorting strictly greater than the last
key of the previous chunk; when last is a proper prefix of cur it is the
first len(last)+1 bytes of cur; and with the flag clear, or on a
non-row-leaf page, the full current key is recorded. -/
theorem rec_split_row_promote_correct (last cur : List Nat)
    (h : lex_lt last cur = true) :
    lex_lt last (rec_split_row_promote_key PageType.ROW_LEAF true last cur) = true ∧
    (∀ n, n < (rec_split_row_promote_key PageType.ROW_LEAF true last cur).length →
        lex_lt last (cur.take n) = false) ∧
    (cur.take last.length = last → last.length < cur.length →
        rec_split_row_promote_key PageType.ROW_LEAF true last cur =
          cur.take (last.length + 1)) ∧
    (∀ t : PageType, rec_split_row_promote_key t false last cur = cur) ∧
    (∀ t : PageType, t ≠ PageType.ROW_LEAF →
        rec_split_row_promote_key t true last cur = cur) := by
  have hsize : rec_split_row_promote_size last cur = 1 + first_diff_idx last cur := by
    simp [rec_split_row_promote_size, promote_size_loop_eq]
  have hcore := lex_lt_core last cur h
  have hbound := lex_lt_first_diff last cur h
  have hdlt : first_diff_idx last cur < cur.length := by
    rcases hbound with h1 | h1
    · exact h1.2
    · exact h1.2.1
  have hkey : rec_split_row_promote_key PageType.ROW_LEAF true last cur =
      cur.take (1 + first_diff_idx last cur) := by
    unfold rec_split_row_promote_key
    rw [if_pos (⟨rfl, rfl⟩ : PageType.ROW_LEAF = PageType.ROW_LEAF ∧ true = true), hsize]
  refine ⟨?_, ?_, ?_, ?_, ?_⟩
  · rw [hkey]
    exact hcore.1
  · intro n hn
    rw [hkey] at hn
    have hlen : (cur.take (1 + first_diff_idx last cur)).length =
        1 + first_diff_idx last cur := by
      simp [List.length_take]
      omega
    rw [hlen] at hn
    exact hcore.2 n (by omega)
  · intro hp hl
    rw [hkey, first_diff_idx_of_proper last cur hp hl, Nat.add_comm]
  · intro t
    simp [rec_split_row_promote_key]
  · intro t ht
    simp [rec_split_row_promote_key, ht]

/-- C4 witness: evaluation at a concrete input discharging the
hypothesis. -/
theorem rec_split_row_promote_correct_witness :
    lex_lt [1, 2] (rec_split_row_promote_key PageType.ROW_LEAF true [1, 2] [1, 3, 5]) =
      true ∧
    (∀ n, n < (rec_split_row_promote_key PageType.ROW_LEAF true [1, 2] [1, 3, 5]).length →
        lex_lt [1, 2] (List.take n [1, 3, 5]) = false) ∧
    (List.take 2 [1, 3, 5] = [1, 2] → 2 < 3 →
        rec_split_row_promote_key PageType.ROW_LEAF true [1, 2] [1, 3, 5] =
          List.take 3 [1, 3, 5]) ∧
    (∀ t : PageType, rec_split_row_promote_key t false [1, 2] [1, 3, 5] = [1, 3, 5]) ∧
    (∀ t : PageType, t ≠ PageType.ROW_LEAF →
        rec_split_row_promote_key t true [1, 2] [1, 3, 5] = [1, 3, 5]) := by
  have h := rec_split_row_promote_correct [1, 2] [1, 3, 5] (by decide)
  simpa using h

/- Variable-length column-store writer (rec_col_var and its helper). -/

/-- Salvage cookie guiding reconciliation during recovery. -/
structure SalvageCookie where
  skip : Nat
  take : Nat
  missing : Nat
  done : Bool
deriving DecidableEq, Repr

/-- Cell emitted by the variable-length column-store helper: a deleted RLE
cell, a value cell with run-length count, or a raw byte-for-byte copy of
an original overflow cell. -/
inductive VCell where
  | del (rle : Nat)
  | val (data : List Nat) (rle : Nat)
  | raw (bytes : List Nat)
deriving DecidableEq, Repr

/-- Model of rec_col_var_helper: adjust the run-length against the salvage
cookie, then build the deleted, raw, or value cell.  In the skip branch
the source zeroes the skip field of the cookie before subtracting it from
rle, so the subtraction removes nothing; this is mirrored literally.  The
take branch caps rle and sets the done flag once take is exhausted.  The
Huffman and overflow encodings of the value bytes are external and the
emitted cell records the value bytes and run-length as passed onward. -/
def rec_col_var_helper (sal : Option SalvageCookie) (value : List Nat)
    (deleted raw : Bool) (rle : Nat) : Option SalvageCookie × List VCell :=
  match sal with
  | none =>
      (none,
       [if deleted then VCell.del rle
        else if raw then VCell.raw value else VCell.val value rle])
  | some s =>
      if s.done then (some s, [])
      else if s.skip ≠ 0 ∧ rle ≤ s.skip then
        (some { s with skip := s.skip - rle }, [])
      else
        let s1 := if s.skip ≠ 0 then { s with skip := 0 } else s
        let rle1 := if s.skip ≠ 0 then rle - s1.skip else rle
        let afterTake :=
          if s1.take ≠ 0 then
            let p := if rle1 ≤ s1.take then ({ s1 with take := s1.take - rle1 }, rle1)
                     else ({ s1 with take := 0 }, s1.take)
            ((if p.1.take = 0 then { p.1 with done := true } else p.1), p.2)
          else (s1, rle1)
        (some afterTake.1,
         [if deleted then VCell.del afterTake.2
          else if raw then VCell.raw value else VCell.val value afterTake.2])

/-- Comparison window of the rec_col_var loop: whether a record is being
tracked, whether it is deleted, its value bytes and the accumulated
run-length count. -/
structure VarWindow where
  canCompare : Bool
  lastDeleted : Bool
  last : List Nat
  rle : Nat
deriving DecidableEq, Repr

/-- Equality test of the rec_col_var loop: two effective records compare
equal when both are deleted, or both present with identical bytes. -/
def var_same (w : VarWindow) (deleted : Bool) (data : List Nat) : Bool :=
  (deleted && w.lastDeleted) || (!w.lastDeleted && !deleted && w.last == data)

/-- RLE accounting step of rec_col_var for one effective record group of
size repeat_count: with a tracked equal record the run-length grows and
nothing is emitted; otherwise the tracked window is flushed through the
helper (when one is tracked) and the window restarts at this record. -/
def var_rle_step (sal : Option SalvageCookie) (w : VarWindow) (deleted : Bool)
    (data : List Nat) (repeat_count : Nat) :
    Option SalvageCookie × VarWindow × List VCell :=
  if w.canCompare && var_same w deleted data then
    (sal, { w with rle := w.rle + repeat_count }, [])
  else
    let flushed :=
      if w.canCompare then rec_col_var_helper sal w.last w.lastDeleted false w.rle
      else (sal, [])
    (flushed.1,
     { canCompare := true, lastDeleted := deleted,
       last := if deleted then w.last else data, rle := repeat_count },
     flushed.2)

/-- Record generation of rec_col_var for one original cell: loop the
repeat records, looking for insert-list entries overriding single record
numbers; between overrides the original value covers the records up to
the next override.  The fuel argument bounds the loop iterations and is
passed as the repeat count by the caller; each iteration advances by at
least one record, so the bound is never hit on inputs the source
terminates on (a zero advance is a degenerate insert list on which the
source would not terminate; the model stops instead). -/
def col_var_records (origDeleted : Bool) (origData : List Nat) :
    Nat → List (Nat × Option (List Nat)) → Nat → Nat → Nat →
    Option SalvageCookie → VarWindow →
    Option SalvageCookie × VarWindow × List VCell × Nat
  | 0, _, srcRecno, _, _, sal, w => (sal, w, [], srcRecno)
  | fuel + 1, ins, srcRecno, n, nrepeat, sal, w =>
    if n < nrepeat then
      match ins with
      | (rno, upd) :: insTail =>
        if rno = srcRecno then
          match var_rle_step sal w upd.isNone (upd.getD origData) 1 with
          | (sal1, w1, e1) =>
            match col_var_records origDeleted origData fuel insTail
                (srcRecno + 1) (n + 1) nrepeat sal1 w1 with
            | (sal2, w2, e2, sr2) => (sal2, w2, e1 ++ e2, sr2)
        else
          let rc := rno - srcRecno
          if rc = 0 then (sal, w, [], srcRecno)
          else
            match var_rle_step sal w origDeleted origData rc with
            | (sal1, w1, e1) =>
              match col_var_records origDeleted origData fuel ins
                  (srcRecno + rc) (n + rc) nrepeat sal1 w1 with
              | (sal2, w2, e2, sr2) => (sal2, w2, e1 ++ e2, sr2)
      | [] =>
        let rc := nrepeat - n
        match var_rle_step sal w origDeleted origData rc with
        | (sal1, w1, e1) => (sal1, w1, e1, srcRecno + rc)
    else (sal, w, [], srcRecno)

/-- Original cell of a variable-length column-store page: absent, deleted
with a repeat count, a plain value with a repeat count, or an overflow
value carrying both its raw cell bytes and its decoded value bytes. -/
inductive OrigCell where
  | missing
  | del (rle : Nat)
  | val (data : List Nat) (rle : Nat)
  | ovfl (cellBytes : List Nat) (data : List Nat) (rle : Nat)
deriving DecidableEq, Repr

/-- Slot of a variable-length column-store page: the original cell and the
insert list of updates overriding single records of its repeat range. -/
structure ColEntry where
  cell : OrigCell
  ins : List (Nat × Option (List Nat))
deriving Repr

/-- Processing of one page slot by rec_col_var.  An overflow cell with no
overriding update flushes the tracked window, rewrites the cell as a raw
copy with comparisons turned off, and repoints the last buffer at the raw
cell bytes; every other case runs the record-generation loop.  The
overflow-tracking side effects are external to this model. -/
def col_var_entry (sal : Option SalvageCookie) (w : VarWindow) (srcRecno : Nat)
    (e : ColEntry) : Option SalvageCookie × VarWindow × List VCell × Nat :=
  match e.cell with
  | OrigCell.missing => col_var_records true [] 1 e.ins srcRecno 0 1 sal w
  | OrigCell.del rle => col_var_records true [] rle e.ins srcRecno 0 rle sal w
  | OrigCell.val d rle => col_var_records false d rle e.ins srcRecno 0 rle sal w
  | OrigCell.ovfl cb d rle =>
      match e.ins with
      | [] =>
          let flushed :=
            if w.canCompare then rec_col_var_helper sal w.last w.lastDeleted false w.rle
            else (sal, [])
          match rec_col_var_helper flushed.1 cb false true rle with
          | (sal2, raws) =>
            (sal2,
             { canCompare := false, lastDeleted := w.lastDeleted,
               last := cb, rle := w.rle },
             flushed.2 ++ raws, srcRecno + rle)
      | _ :: _ => col_var_records false d rle e.ins srcRecno 0 rle sal w

/-- Walk of all page slots by rec_col_var. -/
def col_var_entries (sal : Option SalvageCookie) (w : VarWindow) (srcRecno : Nat) :
    List ColEntry → Option SalvageCookie × VarWindow × List VCell × Nat
  | [] => (sal, w, [], srcRecno)
  | e :: es =>
      match col_var_entry sal w srcRecno e with
      | (s1, w1, e1, r1) =>
        match col_var_entries s1 w1 r1 es with
        | (s2, w2, e2, r2) => (s2, w2, e1 ++ e2, r2)

/-- One append-list entry of rec_col_var: records between the current
source record number and the appended record number are synthesized as
deleted (namespace gaps), then the appended update itself is processed.
The fuel argument is passed as the iteration count of the loop by the
caller. -/
def col_var_append_one (upd : Option (List Nat)) (n : Nat) :
    Nat → Nat → Option SalvageCookie → VarWindow →
    Option SalvageCookie × VarWindow × List VCell × Nat
  | 0, srcRecno, sal, w => (sal, w, [], srcRecno)
  | fuel + 1, srcRecno, sal, w =>
      if srcRecno ≤ n then
        let deleted := if srcRecno < n then true else upd.isNone
        let data := if srcRecno < n then [] else upd.getD []
        match var_rle_step sal w deleted data 1 with
        | (sal1, w1, e1) =>
          match col_var_append_one upd n fuel (srcRecno + 1) sal1 w1 with
          | (s2, w2, e2, r2) => (s2, w2, e1 ++ e2, r2)
      else (sal, w, [], srcRecno)

/-- Walk of the append list by rec_col_var. -/
def col_var_append_list (sal : Option SalvageCookie) (w : VarWindow) (srcRecno : Nat) :
    List (Nat × Option (List Nat)) →
    Option SalvageCookie × VarWindow × List VCell × Nat
  | [] => (sal, w, [], srcRecno)
  | (n, upd) :: rest =>
      match col_var_append_one upd n (n + 1 - srcRecno) srcRecno sal w with
      | (s1, w1, e1, r1) =>
        match col_var_append_list s1 w1 r1 rest with
        | (s2, w2, e2, r2) => (s2, w2, e1 ++ e2, r2)

/-- Variable-length column-store page: its starting record number, the
slots of original cells with their insert lists, and the append list. -/
structure ColVarPage where
  recno : Nat
  entries : List ColEntry
  append : List (Nat × Option (List Nat))
deriving Repr

/-- Model of rec_col_var: emit the salvage missing records as one deleted
RLE cell (deliberately without passing the cookie to the helper), walk
the page slots and the append list maintaining the comparison window, and
flush the tracked window at the end. -/
def rec_col_var (sal : Option SalvageCookie) (page : ColVarPage) :
    Option SalvageCookie × List VCell :=
  let missing := match sal with | none => 0 | some s => s.missing
  let head :=
    if missing ≠ 0 then (rec_col_var_helper none [] true false missing).2 else []
  let srcRecno := page.recno + missing
  let w0 : VarWindow := ⟨false, false, [], 0⟩
  match col_var_entries sal w0 srcRecno page.entries with
  | (s1, w1, e1, r1) =>
    match col_var_append_list s1 w1 r1 page.append with
    | (s2, w2, e2, _) =>
      let fin :=
        if w2.canCompare then rec_col_var_helper s2 w2.last w2.lastDeleted false w2.rle
        else (s2, [])
      (fin.1, head ++ e1 ++ e2 ++ fin.2)

/-- C3: the claim fails on the code.  At run-length 5 with a salvage skip
of 2 (0 < skip < rle), the helper zeroes the skip field before
subtracting it from rle, so the emitted cell still carries run-length 5
instead of the 3 the claim requires: the skip is consumed but no record
is dropped. -/
theorem rec_col_var_helper_skip_bug :
    rec_col_var_helper (some ⟨2, 0, 0, false⟩) [120] false false 5 =
      (some ⟨0, 0, 0, false⟩, [VCell.val [120] 5]) ∧
    VCell.val [120] 5 ≠ VCell.val [120] 3 := by
  constructor
  · rfl
  · decide

/-- C7: consecutive source records whose effective states compare equal
(both deleted, or both present with identical bytes) are collapsed into a
single RLE cell whose count is the sum of their repeat counts; a
differing record flushes the window as one cell and starts a new window;
and on the literal scenarios, 1000 records of one value yield a single
cell of run-length 1000, while updating record 500 yields exactly the
three cells of run-lengths 499, 1, 500. -/
theorem rec_col_var_rle_collapse :
    (∀ (sal : Option SalvageCookie) (w : VarWindow) (deleted : Bool)
        (data : List Nat) (rc : Nat), w.canCompare = true →
        var_same w deleted data = true →
        var_rle_step sal w deleted data rc = (sal, { w with rle := w.rle + rc }, [])) ∧
    (∀ (w : VarWindow) (deleted : Bool) (data : List Nat) (rc : Nat),
        w.canCompare = true →
        var_same w deleted data = false →
        var_rle_step none w deleted data rc =
          (none,
           { canCompare := true, lastDeleted := deleted,
             last := if deleted then w.last else data, rle := rc },
           [if w.lastDeleted then VCell.del w.rle else VCell.val w.last w.rle])) ∧
    rec_col_var none ⟨1, [⟨OrigCell.val [120] 1000, []⟩], []⟩ =
      (none, [VCell.val [120] 1000]) ∧
    rec_col_var none ⟨1, [⟨OrigCell.val [120] 1000, [(500, some [121])]⟩], []⟩ =
      (none, [VCell.val [120] 499, VCell.val [121] 1, VCell.val [120] 500]) := by
  refine ⟨?_, ?_, ?_, ?_⟩
  · intro sal w deleted data rc h1 h2
    simp [var_rle_step, h1, h2]
  · intro w deleted data rc h1 h2
    simp [var_rle_step, h1, h2, rec_col_var_helper]
  · decide
  · decide

/-- C7 witness: the equal-collapse and flush branches applied at concrete
inputs discharging the hypotheses. -/
theorem rec_col_var_rle_collapse_witness :
    var_rle_step none ⟨true, false, [5], 7⟩ false [5] 3 =
      (none, { (⟨true, false, [5], 7⟩ : VarWindow) with rle := 7 + 3 }, []) :=
  rec_col_var_rle_collapse.1 none ⟨true, false, [5], 7⟩ false [5] 3 rfl (by decide)

/- Block manager interface and the per-page overflow tracker. -/

/-- Address and size pair of a written disk block. -/
structure WtOff where
  addr : Nat
  size : Nat
deriving DecidableEq, Repr, Inhabited

/-- Disk block as handed to the block manager: the header fields, the
body bytes past the header, and whether a trailing zero-length key cell
byte follows the body (row-store leaf pages only). -/
structure Block where
  ptype : PageType
  recno : Nat
  uentries : Nat
  body : List Nat
  trailing : Bool
deriving DecidableEq, Repr, Inhabited

/-- Size in bytes of a written block. -/
def block_size (b : Block) : Nat :=
  WT_PAGE_DISK_SIZE + b.body.length + (if b.trailing then 1 else 0)

/-- Model of the external block manager write: blocks are appended to a
list and addressed by their index at write time; the returned pair is the
address and size. -/
def block_write (blocks : List Block) (b : Block) : List Block × Nat × Nat :=
  (blocks ++ [b], blocks.length, block_size b)

/-- States of a tracked object on a page: unused slot, a block scheduled
to be freed, a live overflow record, or an overflow record tentatively
scheduled for discard. -/
inductive PtType where
  | EMPTY
  | BLOCK
  | OVFL
  | OVFL_DISCARD
deriving DecidableEq, Repr

/-- Entry of the per-page tracking list: its state, the identity of the
original data it was created for (absent for plain blocks and overflow
keys), and the address and size of the tracked disk block. -/
structure PageTrack where
  type : PtType
  ref : Option Nat
  addr : Nat
  size : Nat
deriving DecidableEq, Repr

instance : Inhabited PageTrack := ⟨⟨PtType.EMPTY, none, WT_ADDR_INVALID, 0⟩⟩

/-- Model of wt_rec_track: append an entry to the tracking list. -/
def rec_track (track : List PageTrack) (t : PtType) (ref : Option Nat)
    (addr size : Nat) : List PageTrack :=
  track ++ [⟨t, ref, addr, size⟩]

/-- Per-entry action of rec_track_restart_ovfl: live overflow entries are
demoted to tentative discard at the start of a reconciliation. -/
def rec_track_restart_ovfl_entry (tr : PageTrack) : PageTrack :=
  if tr.type = PtType.OVFL then { tr with type := PtType.OVFL_DISCARD } else tr

/-- Model of rec_track_restart_ovfl over the whole tracking list. -/
def rec_track_restart_ovfl (track : List PageTrack) : List PageTrack :=
  track.map rec_track_restart_ovfl_entry

/-- Model of rec_track_ovfl_active: search the tracking list for an
overflow entry whose ref matches the original data identity, promote the
first such entry to the live overflow state and return its address and
size; the NULL-reference short circuit is handled by the caller model. -/
def rec_track_ovfl_active : List PageTrack → Nat → Option (List PageTrack × Nat × Nat)
  | [], _ => none
  | tr :: rest, p =>
      if (tr.type = PtType.OVFL ∨ tr.type = PtType.OVFL_DISCARD) ∧ tr.ref = some p then
        some ({ tr with type := PtType.OVFL } :: rest, tr.addr, tr.size)
      else
        match rec_track_ovfl_active rest p with
        | none => none
        | some (rest1, a, s) => some (tr :: rest1, a, s)

/-- Model of rec_cell_build_ovfl: when a tracked overflow entry matches
the original data identity its address and size are reused and no block
is written; otherwise a fresh overflow block is written and a live
overflow entry appended to the tracking list.  A missing original data
identity (overflow keys) never matches. -/
def rec_cell_build_ovfl (blocks : List Block) (track : List PageTrack)
    (orig : Option Nat) (data : List Nat) :
    List Block × List PageTrack × WtOff :=
  let found := match orig with
               | none => none
               | some p => rec_track_ovfl_active track p
  match found with
  | some (track1, a, s) => (blocks, track1, ⟨a, s⟩)
  | none =>
      let b : Block := ⟨PageType.OVFL, 0, data.length, data, false⟩
      match block_write blocks b with
      | (blocks1, addr, size) =>
        (blocks1, rec_track track PtType.OVFL orig addr size, ⟨addr, size⟩)

/-- Per-entry action of wt_rec_discard_track: entries scheduled to be
freed have their block freed and are reset to the empty state with the
reference cleared, the address invalidated and the size zeroed; empty and
live overflow entries are untouched. -/
def rec_discard_track_entry (tr : PageTrack) : PageTrack × List WtOff :=
  match tr.type with
  | PtType.EMPTY => (tr, [])
  | PtType.OVFL => (tr, [])
  | PtType.BLOCK => (⟨PtType.EMPTY, none, WT_ADDR_INVALID, 0⟩, [⟨tr.addr, tr.size⟩])
  | PtType.OVFL_DISCARD => (⟨PtType.EMPTY, none, WT_ADDR_INVALID, 0⟩, [⟨tr.addr, tr.size⟩])

/-- Model of wt_rec_discard_track over the whole tracking list; the
second component collects the block-free calls in order. -/
def rec_discard_track : List PageTrack → List PageTrack × List WtOff
  | [] => ([], [])
  | tr :: rest =>
      match rec_discard_track_entry tr, rec_discard_track rest with
      | (tr1, f), (rest1, fs) => (tr1 :: rest1, f ++ fs)

theorem rec_discard_track_fst (track : List PageTrack) :
    (rec_discard_track track).1 = track.map (fun tr => (rec_discard_track_entry tr).1) := by
  induction track with
  | nil => rfl
  | cons tr rest ih => simp [rec_discard_track, ih]

theorem rec_discard_track_snd (track : List PageTrack) :
    (rec_discard_track track).2 =
      track.flatMap (fun tr => (rec_discard_track_entry tr).2) := by
  induction track with
  | nil => rfl
  | cons tr rest ih => simp [rec_discard_track, ih]

theorem list_getD_mem {α : Type} [Inhabited α] (l : List α) (i : Nat)
    (h : i < l.length) : l.getD i default ∈ l := by
  rw [List.getD_eq_getElem l default h]
  exact List.getElem_mem h

theorem list_getD_map {α β : Type} (f : α → β) (l : List α) (i : Nat)
    (da : α) (db : β) (h : i < l.length) :
    (l.map f).getD i db = f (l.getD i da) := by
  induction l generalizing i with
  | nil => simp at h
  | cons x xs ih =>
      cases i with
      | zero => rfl
      | succ j =>
          simp only [List.map_cons, List.getD_cons_succ]
          exact ih j (by simpa using h)

/-- C9: after the commit step of a reconciliation, every tracker entry is
live overflow or empty; entries that were tentative-discard or scheduled
blocks have their block freed and are reset to empty with the reference
cleared, the address invalidated and the size zeroed, while live overflow
entries survive unchanged. -/
theorem rec_discard_track_law (track : List PageTrack) :
    (rec_discard_track track).1.length = track.length ∧
    (∀ tr, tr ∈ (rec_discard_track track).1 →
        tr.type = PtType.OVFL ∨ tr.type = PtType.EMPTY) ∧
    (∀ i, i < track.length →
      (((track.getD i default).type = PtType.OVFL_DISCARD ∨
        (track.getD i default).type = PtType.BLOCK) →
        ((rec_discard_track track).1.getD i default =
            ⟨PtType.EMPTY, none, WT_ADDR_INVALID, 0⟩ ∧
         (⟨(track.getD i default).addr, (track.getD i default).size⟩ : WtOff) ∈
            (rec_discard_track track).2)) ∧
      ((track.getD i default).type = PtType.OVFL →
        (rec_discard_track track).1.getD i default = track.getD i default)) := by
  refine ⟨?_, ?_, ?_⟩
  · rw [rec_discard_track_fst]
    simp
  · intro tr htr
    rw [rec_discard_track_fst] at htr
    rcases List.mem_map.1 htr with ⟨x, _, hx⟩
    subst hx
    cases hxt : x.type <;> simp [rec_discard_track_entry, hxt]
  · intro i hi
    have hmem : track.getD i default ∈ track := list_getD_mem track i hi
    have hmap : (rec_discard_track track).1.getD i default =
        (rec_discard_track_entry (track.getD i default)).1 := by
      rw [rec_discard_track_fst]
      exact list_getD_map _ _ _ default default hi
    generalize htr0 : track.getD i default = tr0 at hmem hmap ⊢
    constructor
    · intro hdisc
      constructor
      · rw [hmap]
        rcases hdisc with h1 | h1 <;> simp [rec_discard_track_entry, h1]
      · rw [rec_discard_track_snd]
        refine List.mem_flatMap.2 ⟨tr0, hmem, ?_⟩
        rcases hdisc with h1 | h1 <;> simp [rec_discard_track_entry, h1]
    · intro hovfl
      rw [hmap]
      simp [rec_discard_track_entry, hovfl]

/-- C9 witness: the tracker law evaluated on a concrete tracking list
discharging the hypotheses. -/
theorem rec_discard_track_law_witness :
    (rec_discard_track [⟨PtType.OVFL_DISCARD, some 7, 3, 40⟩,
        ⟨PtType.OVFL, some 8, 4, 50⟩]).1.getD 0 default =
      ⟨PtType.EMPTY, none, WT_ADDR_INVALID, 0⟩ ∧
    (⟨3, 40⟩ : WtOff) ∈ (rec_discard_track [⟨PtType.OVFL_DISCARD, some 7, 3, 40⟩,
        ⟨PtType.OVFL, some 8, 4, 50⟩]).2 := by
  have h := (rec_discard_track_law [⟨PtType.OVFL_DISCARD, some 7, 3, 40⟩,
      ⟨PtType.OVFL, some 8, 4, 50⟩]).2.2 0 (by decide)
  exact h.1 (by decide)

theorem rec_track_ovfl_active_spec (p : Nat) :
    ∀ (track : List PageTrack) (i : Nat), i < track.length →
    ((track.getD i default).type = PtType.OVFL ∨
      (track.getD i default).type = PtType.OVFL_DISCARD) →
    (track.getD i default).ref = some p →
    (∀ j, j < i → ¬((((track.getD j default).type = PtType.OVFL ∨
        (track.getD j default).type = PtType.OVFL_DISCARD) ∧
        (track.getD j default).ref = some p))) →
    rec_track_ovfl_active track p =
      some (track.set i { track.getD i default with type := PtType.OVFL },
            (track.getD i default).addr, (track.getD i default).size) := by
  intro track
  induction track with
  | nil => intro i hi; simp at hi
  | cons tr rest ih =>
      intro i hi htype href hfirst
      cases i with
      | zero =>
          simp only [List.getD_cons_zero] at htype href
          simp [rec_track_ovfl_active, htype, href]
      | succ j =>
          have hhead : ¬((tr.type = PtType.OVFL ∨ tr.type = PtType.OVFL_DISCARD) ∧
              tr.ref = some p) := by
            have := hfirst 0 (by omega)
            simpa using this
          have hrec := ih j (by simpa using hi)
            (by simpa using htype) (by simpa using href)
            (fun k hk => by
              have := hfirst (k + 1) (by omega)
              simpa using this)
          simp only [rec_track_ovfl_active, if_neg hhead, hrec]
          simp [List.set]

theorem rec_track_ovfl_active_none (p : Nat) : ∀ track : List PageTrack,
    (∀ tr ∈ track, ¬((tr.type = PtType.OVFL ∨ tr.type = PtType.OVFL_DISCARD) ∧
        tr.ref = some p)) →
    rec_track_ovfl_active track p = none := by
  intro track
  induction track with
  | nil => intro _; rfl
  | cons tr rest ih =>
      intro h
      have hhead := h tr (List.mem_cons_self tr rest)
      simp only [rec_track_ovfl_active, if_neg hhead,
        ih (fun x hx => h x (List.mem_cons_of_mem tr hx))]

theorem rec_track_restart_ovfl_getD (track : List PageTrack) (i : Nat)
    (hi : i < track.length) :
    (rec_track_restart_ovfl track).getD i default =
      rec_track_restart_ovfl_entry (track.getD i default) := by
  exact list_getD_map _ _ _ default default hi

/-- C8: a value rewritten as overflow reuses a matching tentative-discard
tracker entry, promoting it to live overflow with no block write;
without a match a fresh overflow block is written and appended to the
tracker; and across two successive reconciliations an unchanged value
reuses the same address and size and its block is never freed at the
commit step. -/
theorem rec_cell_build_ovfl_reuse (blocks : List Block) (track : List PageTrack)
    (p a s i : Nat) (data : List Nat)
    (hi : i < track.length)
    (hentry : track.getD i default = ⟨PtType.OVFL, some p, a, s⟩)
    (huref : ∀ j, j < track.length → j ≠ i → (track.getD j default).ref ≠ some p)
    (huaddr : ∀ j, j < track.length → j ≠ i →
        ¬((track.getD j default).addr = a ∧ (track.getD j default).size = s)) :
    (∀ track2 a2 s2, rec_track_ovfl_active track2 p = some (track2, a2, s2) →
        rec_cell_build_ovfl blocks track2 (some p) data = (blocks, track2, ⟨a2, s2⟩)) ∧
    (∀ track2 : List PageTrack,
        (∀ tr ∈ track2, ¬((tr.type = PtType.OVFL ∨ tr.type = PtType.OVFL_DISCARD) ∧
            tr.ref = some p)) →
        rec_cell_build_ovfl blocks track2 (some p) data =
          (blocks ++ [⟨PageType.OVFL, 0, data.length, data, false⟩],
           track2 ++ [⟨PtType.OVFL, some p, blocks.length,
             WT_PAGE_DISK_SIZE + data.length⟩],
           ⟨blocks.length, WT_PAGE_DISK_SIZE + data.length⟩)) ∧
    rec_cell_build_ovfl blocks (rec_track_restart_ovfl track) (some p) data =
      (blocks,
       (rec_track_restart_ovfl track).set i ⟨PtType.OVFL, some p, a, s⟩,
       ⟨a, s⟩) ∧
    (⟨a, s⟩ : WtOff) ∉
      (rec_discard_track
        ((rec_track_restart_ovfl track).set i ⟨PtType.OVFL, some p, a, s⟩)).2 := by
  have hlen : (rec_track_restart_ovfl track).length = track.length := by
    simp [rec_track_restart_ovfl]
  have hres : (rec_track_restart_ovfl track).getD i default =
      ⟨PtType.OVFL_DISCARD, some p, a, s⟩ := by
    rw [rec_track_restart_ovfl_getD track i hi, hentry]
    simp [rec_track_restart_ovfl_entry]
  have hactive := rec_track_ovfl_active_spec p (rec_track_restart_ovfl track) i
    (by omega) (by rw [hres]; right; rfl) (by rw [hres])
    (fun j hj => by
      rw [rec_track_restart_ovfl_getD track j (by omega)]
      intro hcl
      have hjne : j ≠ i := by omega
      have hrf := huref j (by omega) hjne
      apply hrf
      have : (rec_track_restart_ovfl_entry (track.getD j default)).ref =
          (track.getD j default).ref := by
        simp [rec_track_restart_ovfl_entry]
        split <;> rfl
      rw [this] at hcl
      exact hcl.2)
  rw [hres] at hactive
  refine ⟨?_, ?_, ?_, ?_⟩
  · intro track2 a2 s2 hact
    simp [rec_cell_build_ovfl, hact]
  · intro track2 hnomatch
    have hact := rec_track_ovfl_active_none p track2 hnomatch
    simp [rec_cell_build_ovfl, hact, block_write, rec_track, block_size]
  · simp [rec_cell_build_ovfl, hactive]
  · intro hmem
    rw [rec_discard_track_snd] at hmem
    rcases List.mem_flatMap.1 hmem with ⟨tr, htrmem, htrfree⟩
    rcases List.mem_iff_getElem.1 htrmem with ⟨j, hjlen, hjget⟩
    have hjlen2 : j < track.length := by
      simpa [rec_track_restart_ovfl] using hjlen
    by_cases hji : j = i
    · subst hji
      rw [List.getElem_set_self hjlen] at hjget
      rw [← hjget] at htrfree
      simp [rec_discard_track_entry] at htrfree
    · have hne : i ≠ j := fun hc => hji hc.symm
      rw [List.getElem_set_of_ne hne _ hjlen] at hjget
      have htr_eq : tr = rec_track_restart_ovfl_entry (track.getD j default) := by
        rw [← hjget]
        simp only [rec_track_restart_ovfl, List.getElem_map]
        congr 1
        exact (List.getD_eq_getElem track default hjlen2).symm
      have hshape : tr.addr = (track.getD j default).addr ∧
          tr.size = (track.getD j default).size := by
        rw [htr_eq]
        simp only [rec_track_restart_ovfl_entry]
        split <;> simp
      have hfree_shape : tr.addr = a ∧ tr.size = s := by
        cases htt : tr.type <;> simp [rec_discard_track_entry, htt] at htrfree <;>
          exact ⟨htrfree.1.symm, htrfree.2.symm⟩
      exact huaddr j hjlen2 hji ⟨by omega, by omega⟩

/-- C8 witness: the reuse path on a concrete tracker and the fresh-write
path on an empty tracker, discharging the hypotheses. -/
theorem rec_cell_build_ovfl_reuse_witness :
    rec_cell_build_ovfl [] (rec_track_restart_ovfl [⟨PtType.OVFL, some 9, 5, 60⟩])
        (some 9) [1, 2] =
      ([], (rec_track_restart_ovfl [⟨PtType.OVFL, some 9, 5, 60⟩]).set 0
        ⟨PtType.OVFL, some 9, 5, 60⟩, ⟨5, 60⟩) ∧
    rec_cell_build_ovfl [] [] (some 9) [1, 2] =
      ([⟨PageType.OVFL, 0, 2, [1, 2], false⟩],
       [⟨PtType.OVFL, some 9, 0, WT_PAGE_DISK_SIZE + 2⟩],
       ⟨0, WT_PAGE_DISK_SIZE + 2⟩) := by
  have h := rec_cell_build_ovfl_reuse [] [⟨PtType.OVFL, some 9, 5, 60⟩]
    9 5 60 0 [1, 2] (by decide) (by decide)
    (fun j hj hne => by
      simp only [List.length_cons, List.length_nil] at hj
      omega)
    (fun j hj hne => by
      simp only [List.length_cons, List.length_nil] at hj
      omega)
  refine ⟨h.2.2.1, ?_⟩
  have h2 := h.2.1 [] (fun tr htr => absurd htr (List.not_mem_nil tr))
  simpa using h2

/- The split engine (rec_split, rec_split_fixup, rec_split_write). -/

/-- Boundary-tracking states of the split engine. -/
inductive BndState where
  | SPLIT_BOUNDARY
  | SPLIT_MAX
  | SPLIT_TRACKING_OFF
deriving DecidableEq, Repr

/-- Saved boundary record.  The start field is the byte offset of the
first byte of the split chunk, measured from the first post-header byte
of the working buffer (the source stores a raw pointer into the buffer);
recno and entries describe the chunk, off receives the address and size
returned by the block write, and key is the promoted row-store key. -/
structure Bnd where
  start : Nat
  recno : Nat
  entries : Nat
  off : WtOff
  key : List Nat
deriving Repr

instance : Inhabited Bnd := ⟨⟨0, 0, 0, ⟨WT_ADDR_INVALID, 0⟩, []⟩⟩

/-- Reconciliation state.  The working buffer body holds exactly the
content bytes past the fixed header, so first_free always equals its
length; offsets are relative to the first post-header byte.  The blocks
field threads the external block manager; firstKey is the decoded first
key of the page being built (its extraction from the first cell of the
buffer belongs to the external cell codec). -/
structure Rec where
  ptype : PageType
  body : List Nat
  page_size : Nat
  split_size : Nat
  bnd : Nat → Bnd
  bnd_next : Nat
  total_entries : Nat
  bnd_state : BndState
  recno : Nat
  entries : Nat
  first_free : Nat
  space_avail : Nat
  blocks : List Block
  cur : List Nat
  last : List Nat
  key_sfx_compress : Bool
  firstKey : List Nat

/-- Model of rec_split_write: append a trailing zero-length key cell byte
on row-store leaf pages, then hand the block to the block manager and
return the address and size pair. -/
def rec_split_write (blocks : List Block) (ptype : PageType)
    (recno uentries : Nat) (body : List Nat) : List Block × WtOff :=
  let b : Block := ⟨ptype, recno, uentries, body,
    if ptype = PageType.ROW_LEAF then true else false⟩
  match block_write blocks b with
  | (blocks1, addr, size) => (blocks1, ⟨addr, size⟩)

/-- Boundary-array update of rec_split_row_promote: the key of the slot
at bnd_next receives the (possibly suffix-compressed) current key, and
when bnd_next is one the slot zero key additionally receives the first
key of the page copied out of the buffer being built. -/
def rec_split_promote_upd (r : Rec) : Nat → Bnd :=
  let f0 := if r.bnd_next = 1 then
      Function.update r.bnd 0 { r.bnd 0 with key := r.firstKey }
    else r.bnd
  Function.update f0 r.bnd_next
    { f0 r.bnd_next with
      key := rec_split_row_promote_key r.ptype r.key_sfx_compress r.last r.cur }

/-- Byte range of a buffer from offset a inclusive to offset b
exclusive. -/
def slice (l : List Nat) (a b : Nat) : List Nat := (l.drop a).take (b - a)

/-- One iteration of the rec_split_fixup loop: write the chunk between
boundary i and boundary i+1 as its own block, storing the returned
address and size into boundary i. -/
def rec_split_fixup_step (acc : Rec) (i : Nat) : Rec :=
  let bi := acc.bnd i
  let bn := acc.bnd (i + 1)
  let chunk := slice acc.body bi.start bn.start
  match rec_split_write acc.blocks acc.ptype bi.recno bi.entries chunk with
  | (blocks1, off) =>
    { acc with blocks := blocks1,
               bnd := Function.update acc.bnd i { bi with off := off } }

/-- Model of rec_split_fixup: write every saved chunk, then move the
residual bytes from the last saved boundary up to first_free down to the
post-header start of the working buffer and reset the entry and space
cursors. -/
def rec_split_fixup (r : Rec) : Rec :=
  let rw := (List.range r.bnd_next).foldl rec_split_fixup_step r
  let blast := rw.bnd rw.bnd_next
  let len := rw.first_free - blast.start
  { rw with body := rw.body.drop blast.start,
            entries := rw.entries - rw.total_entries,
            first_free := len,
            space_avail := (rw.split_size - WT_PAGE_DISK_SIZE) - len }

/-- Model of rec_split, the page reconciliation bookkeeping: in the
boundary-tracking state a new boundary is saved and the space budget
renewed or the state moves to the maximum-page state; in the maximum-page
state the fix-up runs exactly once and tracking turns off; with tracking
off the current buffer is written out as a block and the cursors reset. -/
def rec_split (r : Rec) : Rec :=
  match r.bnd_state with
  | BndState.SPLIT_BOUNDARY =>
      let f1 := Function.update r.bnd r.bnd_next
        { r.bnd r.bnd_next with entries := r.entries - r.total_entries }
      let nidx := r.bnd_next + 1
      let f2 := Function.update f1 nidx
        { f1 nidx with recno := r.recno, start := r.first_free, entries := 0 }
      let r1 := { r with bnd := f2, bnd_next := nidx, total_entries := r.entries }
      let r2 := if r.ptype = PageType.ROW_INT ∨ r.ptype = PageType.ROW_LEAF then
            { r1 with bnd := rec_split_promote_upd r1 } else r1
      let current_len := WT_PAGE_DISK_SIZE + r.first_free
      if current_len + r.split_size ≤ r.page_size then
        { r2 with space_avail := r.split_size - WT_PAGE_DISK_SIZE }
      else
        { r2 with bnd_state := BndState.SPLIT_MAX,
                  space_avail := (r.page_size - WT_PAGE_DISK_SIZE) - current_len }
  | BndState.SPLIT_MAX =>
      let r1 := rec_split_fixup r
      { r1 with bnd_state := BndState.SPLIT_TRACKING_OFF }
  | BndState.SPLIT_TRACKING_OFF =>
      let b := r.bnd r.bnd_next
      match rec_split_write r.blocks r.ptype b.recno r.entries r.body with
      | (blocks1, off) =>
        let f1 := Function.update r.bnd r.bnd_next { b with off := off }
        let nidx := r.bnd_next + 1
        let f2 := Function.update f1 nidx { f1 nidx with recno := r.recno, entries := 0 }
        let r1 := { r with blocks := blocks1, bnd := f2, bnd_next := nidx }
        let r2 := if r.ptype = PageType.ROW_INT ∨ r.ptype = PageType.ROW_LEAF then
              { r1 with bnd := rec_split_promote_upd r1 } else r1
        { r2 with entries := 0, body := [], first_free := 0,
                  space_avail := r.split_size - WT_PAGE_DISK_SIZE }

/-- Block written for saved boundary i by the fix-up: the page header
fields come from the boundary, the body is the byte range between this
boundary and the next, and row-store leaf blocks carry the trailing key
cell byte. -/
def chunk_block (r : Rec) (i : Nat) : Block :=
  ⟨r.ptype, (r.bnd i).recno, (r.bnd i).entries,
   slice r.body (r.bnd i).start (r.bnd (i + 1)).start,
   if r.ptype = PageType.ROW_LEAF then true else false⟩

theorem fixup_chunks_spec (n : Nat) :
    ∀ r : Rec,
    ((List.range n).foldl rec_split_fixup_step r).ptype = r.ptype ∧
    ((List.range n).foldl rec_split_fixup_step r).body = r.body ∧
    ((List.range n).foldl rec_split_fixup_step r).bnd_next = r.bnd_next ∧
    ((List.range n).foldl rec_split_fixup_step r).first_free = r.first_free ∧
    ((List.range n).foldl rec_split_fixup_step r).entries = r.entries ∧
    ((List.range n).foldl rec_split_fixup_step r).total_entries = r.total_entries ∧
    ((List.range n).foldl rec_split_fixup_step r).split_size = r.split_size ∧
    ((List.range n).foldl rec_split_fixup_step r).page_size = r.page_size ∧
    ((List.range n).foldl rec_split_fixup_step r).bnd_state = r.bnd_state ∧
    ((List.range n).foldl rec_split_fixup_step r).blocks =
      r.blocks ++ (List.range n).map (chunk_block r) ∧
    (∀ j, n ≤ j → ((List.range n).foldl rec_split_fixup_step r).bnd j = r.bnd j) ∧
    (∀ j, j < n → ((List.range n).foldl rec_split_fixup_step r).bnd j =
        { r.bnd j with off := ⟨r.blocks.length + j, block_size (chunk_block r j)⟩ }) := by
  induction n with
  | zero =>
      intro r
      simp
  | succ m ih =>
      intro r
      obtain ⟨hpt, hbody, hbn, hff, hen, hte, hss, hps, hst, hblocks, hge, hlt⟩ := ih r
      rw [List.range_succ, List.foldl_append]
      set rm := (List.range m).foldl rec_split_fixup_step r with hrm
      have hstep : List.foldl rec_split_fixup_step rm [m] = rec_split_fixup_step rm m := by
        simp
      rw [hstep]
      have hbm : rm.bnd m = r.bnd m := hge m (le_refl m)
      have hbm1 : rm.bnd (m + 1) = r.bnd (m + 1) := hge (m + 1) (by omega)
      have hchunk : slice rm.body (rm.bnd m).start ((rm.bnd (m + 1)).start) =
          slice r.body (r.bnd m).start ((r.bnd (m + 1)).start) := by
        rw [hbody, hbm, hbm1]
      have hblen : rm.blocks.length = r.blocks.length + m := by
        rw [hblocks]
        simp
      refine ⟨?_, ?_, ?_, ?_, ?_, ?_, ?_, ?_, ?_, ?_, ?_, ?_⟩
      · simp [rec_split_fixup_step, rec_split_write, block_write, hpt]
      · simp [rec_split_fixup_step, rec_split_write, block_write, hbody]
      · simp [rec_split_fixup_step, rec_split_write, block_write, hbn]
      · simp [rec_split_fixup_step, rec_split_write, block_write, hff]
      · simp [rec_split_fixup_step, rec_split_write, block_write, hen]
      · simp [rec_split_fixup_step, rec_split_write, block_write, hte]
      · simp [rec_split_fixup_step, rec_split_write, block_write, hss]
      · simp [rec_split_fixup_step, rec_split_write, block_write, hps]
      · simp [rec_split_fixup_step, rec_split_write, block_write, hst]
      · simp only [rec_split_fixup_step, rec_split_write, block_write]
        rw [hblocks, hbm, hbm1, hbody, hpt]
        rw [List.map_append, ← List.append_assoc]
        simp [chunk_block]
      · intro j hj
        simp only [rec_split_fixup_step, rec_split_write, block_write]
        rw [Function.update_noteq (by omega)]
        exact hge j (by omega)
      · intro j hj
        simp only [rec_split_fixup_step, rec_split_write, block_write]
        by_cases hjm : j = m
        · subst hjm
          rw [Function.update_same, hchunk, hbm, hblen, hpt]
          simp [chunk_block]
        · rw [Function.update_noteq hjm]
          exact hlt j (by omega)

theorem bnd_start_chain (r : Rec)
    (hmono : ∀ i, i < r.bnd_next → (r.bnd i).start ≤ (r.bnd (i + 1)).start) :
    ∀ j, j ≤ r.bnd_next → ∀ i, i ≤ j → (r.bnd i).start ≤ (r.bnd j).start := by
  intro j
  induction j with
  | zero =>
      intro _ i hi
      have hi0 : i = 0 := by omega
      rw [hi0]
  | succ m ih =>
      intro hj i hi
      by_cases him : i = m + 1
      · subst him; exact le_refl _
      · exact le_trans (ih (by omega) i (by omega)) (hmono m (by omega))

/-- C1: invoked in the maximum-page state, the split engine performs the
fix-up exactly once: for every saved boundary below bnd_next one block is
written whose body is the byte range from that boundary to the next, with
the header entries and starting record number taken from the boundary,
and the returned address and size stored in the boundary; then the
residual bytes from the last saved boundary up to first_free move to the
post-header start of the working buffer, the entry and space cursors are
reset, and the state becomes tracking-off. -/
theorem rec_split_max_fixup (r : Rec)
    (hstate : r.bnd_state = BndState.SPLIT_MAX)
    (hlen : r.body.length = r.first_free)
    (hmono : ∀ i, i < r.bnd_next → (r.bnd i).start ≤ (r.bnd (i + 1)).start)
    (hlast : (r.bnd r.bnd_next).start ≤ r.first_free) :
    (rec_split r).bnd_state = BndState.SPLIT_TRACKING_OFF ∧
    (rec_split r).blocks = r.blocks ++ (List.range r.bnd_next).map (chunk_block r) ∧
    (∀ i, i < r.bnd_next →
      chunk_block r i = ⟨r.ptype, (r.bnd i).recno, (r.bnd i).entries,
          slice r.body (r.bnd i).start ((r.bnd (i + 1)).start),
          if r.ptype = PageType.ROW_LEAF then true else false⟩ ∧
      (chunk_block r i).body.length = (r.bnd (i + 1)).start - (r.bnd i).start ∧
      ((rec_split r).bnd i).off =
        ⟨r.blocks.length + i, block_size (chunk_block r i)⟩) ∧
    (rec_split r).body = r.body.drop ((r.bnd r.bnd_next).start) ∧
    (rec_split r).first_free = r.first_free - (r.bnd r.bnd_next).start ∧
    (rec_split r).entries = r.entries - r.total_entries ∧
    (rec_split r).space_avail =
      (r.split_size - WT_PAGE_DISK_SIZE) - (r.first_free - (r.bnd r.bnd_next).start) := by
  have hsplit : rec_split r =
      { rec_split_fixup r with bnd_state := BndState.SPLIT_TRACKING_OFF } := by
    unfold rec_split
    rw [hstate]
  obtain ⟨hpt, hbody, hbn, hff, hen, hte, hss, hps, hst, hblocks, hge, hlt⟩ :=
    fixup_chunks_spec r.bnd_next r
  set rw0 := (List.range r.bnd_next).foldl rec_split_fixup_step r with hrw0
  have hfix : rec_split_fixup r =
      { rw0 with body := rw0.body.drop ((rw0.bnd rw0.bnd_next).start),
                 entries := rw0.entries - rw0.total_entries,
                 first_free := rw0.first_free - (rw0.bnd rw0.bnd_next).start,
                 space_avail := (rw0.split_size - WT_PAGE_DISK_SIZE) -
                   (rw0.first_free - (rw0.bnd rw0.bnd_next).start) } := rfl
  have hblast : rw0.bnd rw0.bnd_next = r.bnd r.bnd_next := by
    rw [hbn]
    exact hge r.bnd_next (le_refl _)
  refine ⟨by rw [hsplit], ?_, ?_, ?_, ?_, ?_, ?_⟩
  · rw [hsplit, hfix]
    exact hblocks
  · intro i hi
    refine ⟨rfl, ?_, ?_⟩
    · have hchain := bnd_start_chain r hmono
      have hle1 : (r.bnd (i + 1)).start ≤ (r.bnd r.bnd_next).start :=
        hchain r.bnd_next (le_refl _) (i + 1) (by omega)
      simp only [chunk_block, slice]
      rw [List.length_take, List.length_drop, hlen]
      omega
    · rw [hsplit, hfix]
      exact congrArg Bnd.off (hlt i hi)
  · rw [hsplit, hfix, hblast, hbody]
  · rw [hsplit, hfix, hblast, hff]
  · rw [hsplit, hfix, hen, hte]
  · rw [hsplit, hfix, hblast, hss, hff]

/-- Concrete reconciliation state in the maximum-page state with two
saved boundaries, used to evaluate the fix-up. -/
def fixup_example : Rec :=
  { ptype := PageType.COL_VAR, body := [10, 11, 12, 13, 14, 15],
    page_size := 40, split_size := 32,
    bnd := fun i =>
      if i = 0 then ⟨0, 1, 2, ⟨WT_ADDR_INVALID, 0⟩, []⟩
      else if i = 1 then ⟨2, 3, 2, ⟨WT_ADDR_INVALID, 0⟩, []⟩
      else if i = 2 then ⟨4, 5, 0, ⟨WT_ADDR_INVALID, 0⟩, []⟩
      else default,
    bnd_next := 2, total_entries := 4, bnd_state := BndState.SPLIT_MAX,
    recno := 7, entries := 5, first_free := 6, space_avail := 0,
    blocks := [], cur := [], last := [], key_sfx_compress := false,
    firstKey := [] }

/-- C1 witness: the fix-up evaluated on the concrete state discharging
the hypotheses. -/
theorem rec_split_max_fixup_witness :
    (rec_split fixup_example).bnd_state = BndState.SPLIT_TRACKING_OFF ∧
    (rec_split fixup_example).blocks =
      [⟨PageType.COL_VAR, 1, 2, [10, 11], false⟩,
       ⟨PageType.COL_VAR, 3, 2, [12, 13], false⟩] ∧
    ((rec_split fixup_example).bnd 0).off = ⟨0, 30⟩ ∧
    ((rec_split fixup_example).bnd 1).off = ⟨1, 30⟩ ∧
    (rec_split fixup_example).body = [14, 15] ∧
    (rec_split fixup_example).first_free = 2 ∧
    (rec_split fixup_example).entries = 1 ∧
    (rec_split fixup_example).space_avail = 2 := by
  have h := rec_split_max_fixup fixup_example rfl (by decide)
    (fun i hi => by
      have hi2 : i < 2 := hi
      interval_cases i <;> decide) (by decide)
  obtain ⟨h1, h2, h3, h4, h5, h6, h7⟩ := h
  refine ⟨h1, ?_, ?_, ?_, ?_, ?_, ?_, ?_⟩
  · rw [h2]; decide
  · rw [(h3 0 (by decide)).2.2]; decide
  · rw [(h3 1 (by decide)).2.2]; decide
  · rw [h4]; decide
  · rw [h5]; decide
  · rw [h6]; decide
  · rw [h7]; decide

/- Wrap-up (rec_write_wrapup, rec_split_row, rec_split_col). -/

/-- Ephemeral in-memory internal page built by the wrap-up when a page
splits: one child reference per boundary, carrying the boundary address
and size pair together with the promoted key (row stores) or the starting
record number (column stores); the page is flagged for merge into its
parent and is never given to the block manager. -/
structure SplitPage where
  isRow : Bool
  startRecno : Nat
  rowRefs : List (List Nat × WtOff)
  colRefs : List (Nat × WtOff)
  flagRecSplit : Bool
deriving DecidableEq, Repr

/-- Model of rec_split_row: build the ephemeral row-store internal page
from the boundary array. -/
def rec_split_row (r : Rec) : SplitPage :=
  { isRow := true, startRecno := 0,
    rowRefs := (List.range r.bnd_next).map (fun i => ((r.bnd i).key, (r.bnd i).off)),
    colRefs := [], flagRecSplit := true }

/-- Model of rec_split_col: build the ephemeral column-store internal
page from the boundary array. -/
def rec_split_col (r : Rec) : SplitPage :=
  { isRow := false, startRecno := (r.bnd 0).recno,
    rowRefs := [],
    colRefs := (List.range r.bnd_next).map (fun i => ((r.bnd i).recno, (r.bnd i).off)),
    flagRecSplit := true }

/-- Outcome recorded in the page modify structure by the wrap-up. -/
inductive WrapResult where
  | empty
  | replace (off : WtOff)
  | splitPage (p : SplitPage)
deriving DecidableEq, Repr

/-- Model of the boundary-count switch of rec_write_wrapup: zero
boundaries delete the page, one boundary stores the single address and
size pair as a replacement, two or more build the ephemeral split page of
the flavor matching the page type.  The block list is threaded unchanged:
the wrap-up itself never writes a block. -/
def rec_write_wrapup (blocks : List Block) (r : Rec) : List Block × WrapResult :=
  match r.bnd_next with
  | 0 => (blocks, WrapResult.empty)
  | 1 => (blocks, WrapResult.replace (r.bnd 0).off)
  | _ + 2 =>
      (blocks,
       WrapResult.splitPage
         (if r.ptype = PageType.ROW_INT ∨ r.ptype = PageType.ROW_LEAF
          then rec_split_row r else rec_split_col r))

theorem list_getD_range (n i : Nat) (h : i < n) : (List.range n).getD i 0 = i := by
  rw [List.getD_eq_getElem _ _ (by simpa using h)]
  simp

theorem getD_map_range {β : Type} [Inhabited β] (f : Nat → β) (n i : Nat) (h : i < n) :
    ((List.range n).map f).getD i default = f i := by
  rw [list_getD_map f (List.range n) i 0 default (by simpa using h)]
  rw [list_getD_range n i h]

/-- C2: the wrap-up maps the final boundary count to the page state with
no block write of its own: zero boundaries mark the page empty; one
boundary stores that boundary address and size as the replacement; two or
more build the ephemeral internal page of the matching flavor, flagged
for merge, with exactly one child reference per boundary carrying that
boundary address and size and its promoted key (row) or starting record
number (column). -/
theorem rec_write_wrapup_correct (blocks : List Block) (r : Rec) :
    (rec_write_wrapup blocks r).1 = blocks ∧
    (r.bnd_next = 0 → (rec_write_wrapup blocks r).2 = WrapResult.empty) ∧
    (r.bnd_next = 1 →
      (rec_write_wrapup blocks r).2 = WrapResult.replace (r.bnd 0).off) ∧
    (2 ≤ r.bnd_next →
      ((r.ptype = PageType.ROW_INT ∨ r.ptype = PageType.ROW_LEAF) →
        (rec_write_wrapup blocks r).2 = WrapResult.splitPage (rec_split_row r) ∧
        (rec_split_row r).flagRecSplit = true ∧
        (rec_split_row r).rowRefs.length = r.bnd_next ∧
        (∀ i, i < r.bnd_next → (rec_split_row r).rowRefs.getD i default =
            ((r.bnd i).key, (r.bnd i).off))) ∧
      (¬(r.ptype = PageType.ROW_INT ∨ r.ptype = PageType.ROW_LEAF) →
        (rec_write_wrapup blocks r).2 = WrapResult.splitPage (rec_split_col r) ∧
        (rec_split_col r).flagRecSplit = true ∧
        (rec_split_col r).startRecno = (r.bnd 0).recno ∧
        (rec_split_col r).colRefs.length = r.bnd_next ∧
        (∀ i, i < r.bnd_next → (rec_split_col r).colRefs.getD i default =
            ((r.bnd i).recno, (r.bnd i).off)))) := by
  refine ⟨?_, ?_, ?_, ?_⟩
  · rcases r with ⟨pt, body, ps, ss, bnd, bn, te, st, rn, en, ff, sa, bl, cur, last, sfx, fk⟩
    rcases bn with _ | _ | k <;> rfl
  · intro h0
    unfold rec_write_wrapup
    rw [h0]
  · intro h1
    unfold rec_write_wrapup
    rw [h1]
  · intro h2
    constructor
    · intro hrow
      refine ⟨?_, rfl, by simp [rec_split_row], ?_⟩
      · unfold rec_write_wrapup
        obtain ⟨k, hk⟩ : ∃ k, r.bnd_next = k + 2 := ⟨r.bnd_next - 2, by omega⟩
        rw [hk]
        simp [hrow]
      · intro i hi
        simp only [rec_split_row]
        exact getD_map_range _ _ _ hi
    · intro hcol
      refine ⟨?_, rfl, rfl, by simp [rec_split_col], ?_⟩
      · unfold rec_write_wrapup
        obtain ⟨k, hk⟩ : ∃ k, r.bnd_next = k + 2 := ⟨r.bnd_next - 2, by omega⟩
        rw [hk]
        simp [hcol]
      · intro i hi
        simp only [rec_split_col]
        exact getD_map_range _ _ _ hi

/-- Concrete reconciliation state used to evaluate the wrap-up. -/
def wrapup_example : Rec :=
  { fixup_example with ptype := PageType.COL_VAR }

/-- C2 witness: the wrap-up evaluated on a concrete split state
discharging the hypotheses. -/
theorem rec_write_wrapup_correct_witness :
    (rec_write_wrapup [] wrapup_example).2 =
      WrapResult.splitPage (rec_split_col wrapup_example) ∧
    (rec_split_col wrapup_example).colRefs.length = wrapup_example.bnd_next ∧
    (rec_split_col wrapup_example).colRefs.getD 0 default =
      ((wrapup_example.bnd 0).recno, (wrapup_example.bnd 0).off) := by
  have h := (rec_write_wrapup_correct [] wrapup_example).2.2.2 (by decide)
  have h2 := h.2 (by decide)
  exact ⟨h2.1, h2.2.2.2.1, h2.2.2.2.2 0 (by decide)⟩

/- Row-store internal page reconciliation (rec_row_int, rec_row_merge). -/

/-- Child reference of a row-store internal page, as seen by the merge
walk: a child whose block address is read from the reference (the on-disk
state and the not-reconciled in-memory default behave identically here),
an empty child to be skipped, a replaced child whose address comes from
its modify record, or an ephemeral split child whose children are inlined
recursively. -/
inductive RChild where
  | disk (key : List Nat) (off : WtOff)
  | empty (key : List Nat)
  | repl (key : List Nat) (off : WtOff)
  | splitc (key : List Nat) (children : List RChild)
deriving Repr

/-- Model of rec_row_merge: walk the child references of a merge page
emitting one key and address pair per live child.  The first argument
bounds the total recursion (nesting depth plus list length, both finite
in the tree); recursion is structural on it and the caller passes a
bound large enough that it is never exhausted.  The merge-correction key
mr, when present, replaces the child key of the first emitted entry and
is consumed there; skipped empty children leave it pending.  The key
selection modeled here feeds the cell build of the source, where the 0th
key of the new page is additionally truncated to one byte. -/
def row_merge_go : Nat → Option (List Nat) → List RChild →
    Option (List Nat) × List (List Nat × WtOff)
  | 0, mr, _ => (mr, [])
  | _ + 1, mr, [] => (mr, [])
  | fuel + 1, mr, c :: cs =>
      let step :=
        match c with
        | RChild.disk k off => (none, ([(mr.getD k, off)] : List (List Nat × WtOff)))
        | RChild.empty _ => (mr, [])
        | RChild.repl k off => (none, [(mr.getD k, off)])
        | RChild.splitc _ gs => row_merge_go fuel mr gs
      match row_merge_go fuel step.1 cs with
      | (m2, e2) => (m2, step.2 ++ e2)

/-- Model of the emission sequence of rec_row_int: the top-level walk
emits each live child with its own key, skips empty children, and for an
ephemeral split child sets the merge-correction key to the child key held
by the parent before inlining the merge walk. -/
def rec_row_int_emit (fuel : Nat) : List RChild → List (List Nat × WtOff)
  | [] => []
  | c :: cs =>
      (match c with
       | RChild.disk k off => [(k, off)]
       | RChild.empty _ => []
       | RChild.repl k off => [(k, off)]
       | RChild.splitc k gs => (row_merge_go fuel (some k) gs).2) ++
      rec_row_int_emit fuel cs

theorem row_merge_go_shift : ∀ (fuel : Nat) (cs : List RChild)
    (mr : Option (List Nat)),
    row_merge_go fuel mr cs =
      match (row_merge_go fuel none cs).2 with
      | [] => (mr, [])
      | (k0, o0) :: rest => (none, (mr.getD k0, o0) :: rest) := by
  intro fuel
  induction fuel with
  | zero => intro cs mr; rfl
  | succ fl ih =>
      intro cs mr
      cases cs with
      | nil => rfl
      | cons c cs2 =>
          cases c with
          | disk k off =>
              simp only [row_merge_go]
              rw [ih cs2 none]
              rcases hT : (row_merge_go fl none cs2).2 with _ | ⟨⟨k0, o0⟩, rest⟩ <;>
                simp [hT]
          | empty k =>
              simp only [row_merge_go]
              rw [ih cs2 mr, ih cs2 none]
              rcases hT : (row_merge_go fl none cs2).2 with _ | ⟨⟨k0, o0⟩, rest⟩ <;>
                simp [hT]
          | repl k off =>
              simp only [row_merge_go]
              rw [ih cs2 none]
              rcases hT : (row_merge_go fl none cs2).2 with _ | ⟨⟨k0, o0⟩, rest⟩ <;>
                simp [hT]
          | splitc k gs =>
              simp only [row_merge_go]
              rw [ih gs mr, ih gs none]
              rcases hG : (row_merge_go fl none gs).2 with _ | ⟨⟨g0, og⟩, grest⟩
              · rw [ih cs2 mr, ih cs2 none]
                rcases hT : (row_merge_go fl none cs2).2 with _ | ⟨⟨k0, o0⟩, rest⟩ <;>
                  simp [hT]
              · rw [ih cs2 none]
                rcases hT : (row_merge_go fl none cs2).2 with _ | ⟨⟨k0, o0⟩, rest⟩ <;>
                  simp [hT]

theorem rec_row_int_emit_append (fuel : Nat) (l1 l2 : List RChild) :
    rec_row_int_emit fuel (l1 ++ l2) =
      rec_row_int_emit fuel l1 ++ rec_row_int_emit fuel l2 := by
  induction l1 with
  | nil => rfl
  | cons c cs ih => simp [rec_row_int_emit, ih]

/-- C6: when the row-internal walk meets an ephemeral split child it
inlines the child entries recursively, and the key written for the first
emitted entry of the inlined block is the parent key for that child (the
merge-correction key) rather than the ephemeral child 0th key; every
following entry of the block keeps its own key. -/
theorem rec_row_merge_correction (fuel : Nat) (K k0 : List Nat) (o0 : WtOff)
    (cs pre post : List RChild) (rest : List (List Nat × WtOff))
    (h : (row_merge_go fuel none cs).2 = (k0, o0) :: rest) :
    row_merge_go fuel (some K) cs = (none, (K, o0) :: rest) ∧
    rec_row_int_emit fuel (pre ++ RChild.splitc K cs :: post) =
      rec_row_int_emit fuel pre ++ ((K, o0) :: rest) ++ rec_row_int_emit fuel post := by
  have hshift := row_merge_go_shift fuel cs (some K)
  rw [h] at hshift
  constructor
  · exact hshift
  · rw [rec_row_int_emit_append]
    have hemit : rec_row_int_emit fuel (RChild.splitc K cs :: post) =
        (row_merge_go fuel (some K) cs).2 ++ rec_row_int_emit fuel post := rfl
    rw [hemit, hshift]
    simp

/-- C6 witness: the literal scenario of a parent with three children
whose middle child is an ephemeral split page with two children; the
flattened output has four child references and the first key of the
inlined block is the parent key, not the ephemeral child 0th key. -/
theorem rec_row_merge_correction_witness :
    row_merge_go 3 (some [2])
        [RChild.disk [0] ⟨11, 100⟩, RChild.disk [3] ⟨12, 100⟩] =
      (none, ([2], ⟨11, 100⟩) :: [([3], ⟨12, 100⟩)]) ∧
    rec_row_int_emit 3
        ([RChild.disk [1] ⟨10, 100⟩] ++
          RChild.splitc [2] [RChild.disk [0] ⟨11, 100⟩, RChild.disk [3] ⟨12, 100⟩] ::
          [RChild.disk [4] ⟨13, 100⟩]) =
      rec_row_int_emit 3 [RChild.disk [1] ⟨10, 100⟩] ++
        (([2], ⟨11, 100⟩) :: [([3], ⟨12, 100⟩)]) ++
        rec_row_int_emit 3 [RChild.disk [4] ⟨13, 100⟩] :=
  rec_row_merge_correction 3 [2] [0] ⟨11, 100⟩
    [RChild.disk [0] ⟨11, 100⟩, RChild.disk [3] ⟨12, 100⟩]
    [RChild.disk [1] ⟨10, 100⟩] [RChild.disk [4] ⟨13, 100⟩]
    [([3], ⟨12, 100⟩)] (by decide)

end WtRec
